import Mathlib

/-!
# Verification of the batching proxy (`proxy.py`)

Shallow embedding of the proxy's data model and dispatcher logic:

* the work item (`_Item`) with its customer id, sequences and derived
  `maxlen`;
* the ingress handler `proxy_classify` (validation, customer normalization,
  enqueue under the active strategy);
* the dispatcher's batch selection for the three strategies (SJF, FAIR,
  FCFS), each translated from the corresponding branch of `_dispatcher`;
* the flatten / index-map construction, the demultiplexer that scatters
  downstream labels back into per-item result buffers, and the failure path
  that resolves a whole batch with an error.

Queues are lists with the head at the front (so `popleft` is pattern
matching on the head and `append` is `++ [x]`).  Futures are modelled as a
map from item ids to a resolution state (`pending`, `ok`, `err`).
-/

namespace ProxyWars

/-- `MAX_BATCH = 5` from the configuration block of `proxy.py`. -/
def MAX_BATCH : Nat := 5

/-- `BATCH_TIMEOUT_MS = 50` from the configuration block of `proxy.py`. -/
def BATCH_TIMEOUT_MS : Nat := 50

/-- The `_Strategy` enum: `sjf`, `fair`, `fcfs`. -/
inductive Strategy where
  | sjf
  | fair
  | fcfs
deriving DecidableEq, Repr

/-- The `_Item` queue record: uuid (modelled as a `Nat`), customer id as
stored by the ingress handler, and the request's sequences.  `maxlen` is a
derived field, see `Item.maxlen`; the future is modelled separately as a
resolution map keyed by `id`. -/
structure Item where
  id : Nat
  cid : String
  seqs : List String
deriving DecidableEq, Repr

/-- `self.maxlen = max(map(len, seqs))` (equal to the Python value whenever
`seqs` is non-empty, which admission guarantees). -/
def Item.maxlen (i : Item) : Nat :=
  (i.seqs.map String.length).foldl Nat.max 0

/-- State of an item's `asyncio.Future`: not yet resolved, resolved with a
label list (`set_result`), or resolved with an error (`set_exception`). -/
inductive Res where
  | pending
  | ok (labels : List String)
  | err (msg : String)
deriving DecidableEq, Repr

/-- The futures of all items, keyed by item id. -/
abbrev ResMap := Nat → Res

/-- Resolve one future (a single `set_result` / `set_exception`). -/
def setRes (m : ResMap) (id : Nat) (r : Res) : ResMap :=
  fun j => if j = id then r else m j

/-- The proxy's mutable module state: active strategy, the global FIFO
`fifo_q`, the per-customer queues `q_a` / `q_b`, and `last_turn`. -/
structure ProxyState where
  strategy : Strategy
  fifo : List Item
  qa : List Item
  qb : List Item
  lastTurn : String
deriving DecidableEq, Repr

/-- Module initialisation: all queues empty and `last_turn = "B"`
(line `last_turn = "B"` of `proxy.py`). -/
def initialState (s : Strategy) : ProxyState :=
  { strategy := s, fifo := [], qa := [], qb := [], lastTurn := "B" }

/-- Python's `str.upper()` on ASCII input: uppercase character by
character. -/
def upper (s : String) : String :=
  ⟨s.data.map Char.toUpper⟩

/-- Customer id as computed by the ingress handler: the `X-Customer-Id`
header (defaulting to `"A"` when absent), uppercased
(`_Item(x_customer_id.upper(), ...)`). -/
def normalizeCid (header : Option String) : String :=
  upper (header.getD "A")

/-- Build the `_Item` the ingress handler constructs. -/
def mkItem (id : Nat) (header : Option String) (seqs : List String) : Item :=
  { id := id, cid := normalizeCid header, seqs := seqs }

/-- The enqueue step of `proxy_classify`: under FAIR the item goes to `q_a`
when `itm.cid == "A"` and to `q_b` otherwise; under SJF/FCFS it goes to the
global FIFO. -/
def enqueue (st : ProxyState) (itm : Item) : ProxyState :=
  match st.strategy with
  | .fair =>
      if itm.cid = "A" then { st with qa := st.qa ++ [itm] }
      else { st with qb := st.qb ++ [itm] }
  | _ => { st with fifo := st.fifo ++ [itm] }

/-- The admission part of `proxy_classify`: validate
`1 <= len(body.sequences) <= MAX_BATCH`, rejecting with HTTP 400 and the
message `"Need 1–5 sequences"` (state unchanged), otherwise construct the
item and enqueue it.  The first component is the immediate error response,
if any. -/
def proxyClassify (st : ProxyState) (id : Nat) (header : Option String)
    (seqs : List String) : Option (Nat × String) × ProxyState :=
  if 1 ≤ seqs.length ∧ seqs.length ≤ MAX_BATCH then
    (none, enqueue st (mkItem id header seqs))
  else
    (some (400, "Need 1–5 sequences"), st)

/-- What the suspended ingress handler returns once it observes its item's
future: `none` while the future is pending, a 200 payload on success, and
HTTP 500 `"Downstream service error: <detail>"` when awaiting the future
raised. -/
def ingressRespond (r : Res) (latencyMs : Nat) :
    Option (Except (Nat × String) (List String × Nat)) :=
  match r with
  | .pending => none
  | .ok labels => some (.ok (labels, latencyMs))
  | .err msg => some (.error (500, "Downstream service error: " ++ msg))

/-- Total number of sequences carried by a list of items
(`total_sequences` for a batch). -/
def seqCount (batch : List Item) : Nat :=
  (batch.map (fun i => i.seqs.length)).sum

/-- The head-draining loop shared by FAIR and FCFS:
`while q and total + len(q[0].seqs) <= MAX_BATCH: q.popleft()`.
Returns the admitted items, the remaining queue, and the final
`total_sequences`. -/
def drainWhile (q : List Item) (total : Nat) : List Item × List Item × Nat :=
  match q with
  | [] => ([], [], total)
  | itm :: rest =>
      if total + itm.seqs.length ≤ MAX_BATCH then
        let d := drainWhile rest (total + itm.seqs.length)
        (itm :: d.1, d.2.1, d.2.2)
      else ([], itm :: rest, total)

/-- The items a single greedy pass admits starting from a running total:
take while each successive item fits, stop at the first one that does not.
This is the batch component of both `drainWhile` and the SJF for-loop. -/
def greedyAdmit : List Item → Nat → List Item
  | [], _ => []
  | itm :: rest, total =>
      if total + itm.seqs.length ≤ MAX_BATCH then
        itm :: greedyAdmit rest (total + itm.seqs.length)
      else []

/-- `sorted(fifo_q)`: Python's stable sort under `_Item.__lt__`, which
compares `maxlen` only.  A stable sort by the key `maxlen` is insertion
sort with the reflexive comparison `maxlen ≤ maxlen`. -/
def sortedByMaxlen (q : List Item) : List Item :=
  List.insertionSort (fun a b => a.maxlen ≤ b.maxlen) q

/-- `deque.remove(item)`: remove the first occurrence (items are compared
by identity, modelled by the unique id). -/
def removeFirst (q : List Item) (id : Nat) : List Item :=
  match q with
  | [] => []
  | itm :: rest => if itm.id = id then rest else itm :: removeFirst rest id

/-- Remove the items with the given ids from a queue, one `deque.remove`
per id. -/
def removeIds (fifo : List Item) (ids : List Nat) : List Item :=
  ids.foldl removeFirst fifo

/-- The SJF for-loop of `_dispatcher`: walk the sorted snapshot, admit an
item while it fits (appending to the batch and removing it from the FIFO),
and `break` at the first item that does not fit. -/
def sjfLoop : List Item → Nat → List Item → List Item → List Item × List Item
  | [], _, batch, fifo => (batch, fifo)
  | itm :: rest, total, batch, fifo =>
      if total + itm.seqs.length ≤ MAX_BATCH then
        sjfLoop rest (total + itm.seqs.length) (batch ++ [itm])
          (removeFirst fifo itm.id)
      else (batch, fifo)

/-- The SJF branch of `_dispatcher`: if the FIFO is non-empty, sort it and
run the greedy loop.  Returns the batch and the FIFO left behind. -/
def sjfSelect (q : List Item) : List Item × List Item :=
  if q.isEmpty then ([], q)
  else sjfLoop (sortedByMaxlen q) 0 [] q

/-- Modelled from the spec: the best-fit-after-sort selection §4.3.1
prescribes (walk the whole sorted view, skipping items that do not fit and
continuing to later, smaller items).  This is the spec's wording, kept only
to compare against the source's prefix-greedy loop; it is not in the
source. -/
def bestFitAdmit : List Item → Nat → List Item
  | [], _ => []
  | itm :: rest, total =>
      if total + itm.seqs.length ≤ MAX_BATCH then
        itm :: bestFitAdmit rest (total + itm.seqs.length)
      else bestFitAdmit rest total

/-- Modelled from the spec: SJF selection as §4.3.1 words it
(stable sort, then best-fit walk over the entire sorted view). -/
def sjfSelectSpec (q : List Item) : List Item :=
  bestFitAdmit (sortedByMaxlen q) 0

/-- The opening move of the FAIR branch: `if primary and total_sequences +
len(primary[0].seqs) <= MAX_BATCH` (with `total_sequences = 0`), admit the
head and set `last_turn := turn`.  Returns (admitted, remaining primary,
running total, new `last_turn`). -/
def fairFirst (primary : List Item) (lastTurn turn : String) :
    List Item × List Item × Nat × String :=
  match primary with
  | [] => ([], [], 0, lastTurn)
  | h :: t =>
      if 0 + h.seqs.length ≤ MAX_BATCH then ([h], t, 0 + h.seqs.length, turn)
      else ([], h :: t, 0, lastTurn)

/-- The FAIR branch of `_dispatcher`: compute `turn`, try to admit the
primary queue's head (updating `last_turn` on success), then drain the
primary and then the secondary while items fit.  Returns the batch and the
updated state. -/
def fairSelect (st : ProxyState) : List Item × ProxyState :=
  if st.qa.isEmpty && st.qb.isEmpty then ([], st)
  else
    let turn := if st.lastTurn = "B" then "A" else "B"
    let primary := if turn = "A" then st.qa else st.qb
    let secondary := if turn = "A" then st.qb else st.qa
    let f := fairFirst primary st.lastTurn turn
    let d2 := drainWhile f.2.1 f.2.2.1
    let d3 := drainWhile secondary d2.2.2
    let batch := f.1 ++ d2.1 ++ d3.1
    let qa' := if turn = "A" then d2.2.1 else d3.2.1
    let qb' := if turn = "A" then d3.2.1 else d2.2.1
    (batch, { st with qa := qa', qb := qb', lastTurn := f.2.2.2 })

/-- The FCFS branch of `_dispatcher`: drain the FIFO head while items fit;
if that admitted something and the batch is below capacity, sleep
`BATCH_TIMEOUT_MS` and drain once more.  `arrivals` are the items appended
to the FIFO during the sleep.  The boolean reports whether the wait
happened. -/
def fcfsSelect (q arrivals : List Item) : List Item × List Item × Bool :=
  let d1 := drainWhile q 0
  if ¬ d1.1.isEmpty ∧ d1.2.2 < MAX_BATCH then
    let d2 := drainWhile (d1.2.1 ++ arrivals) d1.2.2
    (d1.1 ++ d2.1, d2.2.1, true)
  else (d1.1, d1.2.1, false)

/-- One batch selection of `_dispatcher`, dispatching on the active
strategy (no arrivals during the FCFS wait in this pure view). -/
def dispatchSelect (st : ProxyState) : List Item × ProxyState :=
  match st.strategy with
  | .sjf =>
      let r := sjfSelect st.fifo
      (r.1, { st with fifo := r.2 })
  | .fair => fairSelect st
  | .fcfs =>
      let r := fcfsSelect st.fifo []
      (r.1, { st with fifo := r.2.1 })

/-- `flat`: the concatenation of the batch items' sequences. -/
def flatten (batch : List Item) : List String :=
  batch.flatMap Item.seqs

/-- `idx_map`: for every sequence of every batch item, the pair
`(item, position_within_item)`, in batch order. -/
def buildIdxMap (batch : List Item) : List (Item × Nat) :=
  batch.flatMap (fun itm => (List.range itm.seqs.length).map (fun p => (itm, p)))

/-- A per-item result buffer (`[None] * len(itm.seqs)` progressively
filled). -/
abbrev Buffer := List (Option String)

/-- One entry of the `request_results` dict: the item and its buffer. -/
structure ReqEntry where
  item : Item
  results : Buffer
deriving DecidableEq, Repr

/-- The demux grouping loop:
`for (itm, pos), lab in zip(idx_map, labels)` — create the item's entry on
first sight (buffer of `None`s) and store the label at `pos`.  The dict is
modelled as an insertion-ordered association list. -/
def groupResults : List ((Item × Nat) × String) → List ReqEntry → List ReqEntry
  | [], acc => acc
  | ((itm, pos), lab) :: rest, acc =>
      let acc1 :=
        if acc.any (fun e => e.item.id = itm.id) then acc
        else acc ++ [{ item := itm, results := List.replicate itm.seqs.length none }]
      let acc2 := acc1.map (fun e =>
        if e.item.id = itm.id then { item := e.item, results := e.results.set pos (some lab) }
        else e)
      groupResults rest acc2

/-- The demux resolution loop: for each grouped entry, if every position is
filled and the item's future is not yet done, resolve it with the buffer;
otherwise leave the future untouched. -/
def resolveEntries (entries : List ReqEntry) (m : ResMap) : ResMap :=
  entries.foldl
    (fun r e =>
      if e.results.all Option.isSome ∧ r e.item.id = .pending then
        setRes r e.item.id (.ok (e.results.filterMap (fun x => x)))
      else r)
    m

/-- The whole demux step of `_dispatcher`: zip the index map with the
returned labels (truncating at the shorter), group into per-item buffers,
and resolve the complete ones. -/
def demux (batch : List Item) (labels : List String) (m : ResMap) : ResMap :=
  resolveEntries (groupResults ((buildIdxMap batch).zip labels) []) m

/-- The failure path of `_dispatcher`:
`for itm in batch: if not itm.fut.done(): itm.fut.set_exception(...)`. -/
def failBatch (batch : List Item) (msg : String) (m : ResMap) : ResMap :=
  batch.foldl
    (fun r itm => if r itm.id = .pending then setRes r itm.id (.err msg) else r)
    m

/-- Outcome of the downstream call as seen by the dispatcher: a decoded
label list, or any raised exception / non-2xx status collapsed to its
message. -/
inductive Downstream where
  | ok (labels : List String)
  | fail (msg : String)
deriving DecidableEq, Repr

/-- One full dispatcher cycle: select a batch; if it is empty just idle,
otherwise either demux the downstream labels or resolve the whole batch
with the error.  The function is total: the cycle always yields the state
for the next iteration (the `continue` after the failure path). -/
def dispatchCycle (st : ProxyState) (ds : Downstream) (m : ResMap) :
    ProxyState × ResMap :=
  let sel := dispatchSelect st
  if sel.1.isEmpty then (sel.2, m)
  else
    match ds with
    | .fail msg => (sel.2, failBatch sel.1 msg m)
    | .ok labels => (sel.2, demux sel.1 labels m)

/-- Count of batch members carrying at least 3 sequences (used to state
that two 3-sequence items never share a batch). -/
def bigItemCount (batch : List Item) : Nat :=
  batch.countP (fun i => decide (3 ≤ i.seqs.length))

/-- A concrete state in which FCFS is active while one item sits stranded
in the class-A queue (as left behind by an earlier FAIR episode). -/
def strandedState : ProxyState :=
  { strategy := .fcfs, fifo := [], qa := [mkItem 20 none ["x"]], qb := [],
    lastTurn := "B" }

/-! ## Basic lemmas about `seqCount` and the greedy loops -/

theorem setRes_self (m : ResMap) (id : Nat) (r : Res) : setRes m id r id = r := by
  simp [setRes]

theorem setRes_ne (m : ResMap) (id j : Nat) (r : Res) (h : j ≠ id) :
    setRes m id r j = m j := by
  simp [setRes, h]

theorem seqCount_nil : seqCount [] = 0 := rfl

theorem seqCount_cons (i : Item) (l : List Item) :
    seqCount (i :: l) = i.seqs.length + seqCount l := by
  simp [seqCount]

theorem seqCount_append (l₁ l₂ : List Item) :
    seqCount (l₁ ++ l₂) = seqCount l₁ + seqCount l₂ := by
  simp [seqCount]

theorem drainWhile_fst_eq_greedyAdmit (q : List Item) (t : Nat) :
    (drainWhile q t).1 = greedyAdmit q t := by
  induction q generalizing t with
  | nil => rfl
  | cons i rest ih =>
      by_cases h : t + i.seqs.length ≤ MAX_BATCH <;>
        simp [drainWhile, greedyAdmit, h, ih]

theorem greedyAdmit_bound (q : List Item) (t : Nat) (h : t ≤ MAX_BATCH) :
    t + seqCount (greedyAdmit q t) ≤ MAX_BATCH := by
  induction q generalizing t with
  | nil => simpa [greedyAdmit, seqCount_nil]
  | cons i rest ih =>
      by_cases hf : t + i.seqs.length ≤ MAX_BATCH
      · have := ih (t + i.seqs.length) hf
        simp only [greedyAdmit, hf, if_pos, seqCount_cons]
        omega
      · simp only [greedyAdmit, hf, if_neg, not_false_iff, seqCount_nil]
        omega

theorem drainWhile_split (q : List Item) (t : Nat) :
    (drainWhile q t).1 ++ (drainWhile q t).2.1 = q := by
  induction q generalizing t with
  | nil => rfl
  | cons i rest ih =>
      by_cases h : t + i.seqs.length ≤ MAX_BATCH <;>
        simp [drainWhile, h, ih]

theorem drainWhile_total (q : List Item) (t : Nat) :
    (drainWhile q t).2.2 = t + seqCount (drainWhile q t).1 := by
  induction q generalizing t with
  | nil => simp [drainWhile, seqCount_nil]
  | cons i rest ih =>
      by_cases h : t + i.seqs.length ≤ MAX_BATCH
      · simp only [drainWhile, h, if_pos, seqCount_cons, ih]
        omega
      · simp [drainWhile, h, seqCount_nil]

theorem drainWhile_le (q : List Item) (t : Nat) (h : t ≤ MAX_BATCH) :
    (drainWhile q t).2.2 ≤ MAX_BATCH := by
  rw [drainWhile_total, drainWhile_fst_eq_greedyAdmit]
  exact greedyAdmit_bound q t h

theorem sjfLoop_fst (l : List Item) (t : Nat) (batch fifo : List Item) :
    (sjfLoop l t batch fifo).1 = batch ++ greedyAdmit l t := by
  induction l generalizing t batch fifo with
  | nil => simp [sjfLoop, greedyAdmit]
  | cons i rest ih =>
      by_cases h : t + i.seqs.length ≤ MAX_BATCH <;>
        simp [sjfLoop, greedyAdmit, h, ih]

theorem sjfSelect_fst (q : List Item) :
    (sjfSelect q).1 = if q.isEmpty then [] else greedyAdmit (sortedByMaxlen q) 0 := by
  by_cases h : q.isEmpty <;> simp [sjfSelect, h, sjfLoop_fst]

theorem sjfSelect_bound (q : List Item) : seqCount (sjfSelect q).1 ≤ MAX_BATCH := by
  rw [sjfSelect_fst]
  by_cases h : q.isEmpty
  · simp [h, seqCount_nil]
  · simp only [h, if_neg, Bool.false_eq_true, not_false_iff]
    have := greedyAdmit_bound (sortedByMaxlen q) 0 (by norm_num [MAX_BATCH])
    omega

theorem fairFirst_total_eq (primary : List Item) (lt turn : String) :
    (fairFirst primary lt turn).2.2.1 = seqCount (fairFirst primary lt turn).1 ∧
    (fairFirst primary lt turn).2.2.1 ≤ MAX_BATCH := by
  match primary with
  | [] => simp [fairFirst, seqCount_nil]
  | h :: t =>
      by_cases hf : h.seqs.length ≤ MAX_BATCH
      · simp [fairFirst, hf, seqCount_cons, seqCount_nil]
      · simp only [MAX_BATCH] at hf
        simp [fairFirst, hf, seqCount_nil, MAX_BATCH]

theorem fairSelect_batch_total (st : ProxyState) :
    seqCount (fairSelect st).1 ≤ MAX_BATCH := by
  unfold fairSelect
  split
  · simp [seqCount_nil]
  · dsimp only
    set turn := if st.lastTurn = "B" then "A" else "B" with hturn
    set primary := if turn = "A" then st.qa else st.qb with hp
    set secondary := if turn = "A" then st.qb else st.qa with hs
    have hf := fairFirst_total_eq primary st.lastTurn turn
    set f := fairFirst primary st.lastTurn turn with hfdef
    have h2 := drainWhile_total f.2.1 f.2.2.1
    have h2b := drainWhile_le f.2.1 f.2.2.1 hf.2
    have h3 := drainWhile_total secondary (drainWhile f.2.1 f.2.2.1).2.2
    have h3b := drainWhile_le secondary (drainWhile f.2.1 f.2.2.1).2.2 h2b
    simp only [seqCount_append]
    omega

theorem fcfsSelect_bound (q arr : List Item) :
    seqCount (fcfsSelect q arr).1 ≤ MAX_BATCH := by
  unfold fcfsSelect
  have h1 := drainWhile_total q 0
  have h1b := drainWhile_le q 0 (by norm_num [MAX_BATCH])
  dsimp only
  split
  · dsimp only
    have h2 := drainWhile_total ((drainWhile q 0).2.1 ++ arr) (drainWhile q 0).2.2
    have h2b := drainWhile_le ((drainWhile q 0).2.1 ++ arr) (drainWhile q 0).2.2 h1b
    simp only [seqCount_append]
    omega
  · dsimp only
    omega

theorem seqs_length_le_seqCount {i : Item} {b : List Item} (h : i ∈ b) :
    i.seqs.length ≤ seqCount b := by
  induction b with
  | nil => cases h
  | cons j rest ih =>
      rcases List.mem_cons.mp h with rfl | h'
      · simp [seqCount_cons]
      · have := ih h'
        simp only [seqCount_cons]
        omega

theorem bigItemCount_le_one {b : List Item} (h : seqCount b ≤ MAX_BATCH) :
    bigItemCount b ≤ 1 := by
  induction b with
  | nil => simp [bigItemCount]
  | cons i rest ih =>
      simp only [seqCount_cons, MAX_BATCH] at h
      by_cases h3 : 3 ≤ i.seqs.length
      · have hrest : bigItemCount rest = 0 := by
          rw [bigItemCount, List.countP_eq_zero]
          intro j hj
          have := seqs_length_le_seqCount hj
          simp only [decide_eq_true_eq]
          omega
        simp only [bigItemCount, List.countP_cons, decide_eq_true_eq, h3, if_pos]
        rw [bigItemCount] at hrest
        omega
      · have := ih (by simp only [MAX_BATCH]; omega)
        simp only [bigItemCount, List.countP_cons, decide_eq_true_eq, h3, if_neg,
          not_false_iff, add_zero]
        exact this

/-! ## Claim theorems -/

/-- C1: every batch any of the three strategies selects carries at most
`MAX_BATCH = 5` sequences in total, and consequently no batch ever holds
two items of 3 (or more) sequences each. -/
theorem C1_batch_cap (q : List Item) (st : ProxyState) (qf arr : List Item) :
    seqCount (sjfSelect q).1 ≤ MAX_BATCH ∧
    seqCount (fairSelect st).1 ≤ MAX_BATCH ∧
    seqCount (fcfsSelect qf arr).1 ≤ MAX_BATCH ∧
    bigItemCount (sjfSelect q).1 ≤ 1 ∧
    bigItemCount (fairSelect st).1 ≤ 1 ∧
    bigItemCount (fcfsSelect qf arr).1 ≤ 1 :=
  ⟨sjfSelect_bound q, fairSelect_batch_total st, fcfsSelect_bound qf arr,
    bigItemCount_le_one (sjfSelect_bound q),
    bigItemCount_le_one (fairSelect_batch_total st),
    bigItemCount_le_one (fcfsSelect_bound qf arr)⟩

/-! ## Lemmas about the FAIR branch -/

theorem fairSelect_open_A (st : ProxyState) (h : Item) (t : List Item)
    (hlt : st.lastTurn = "B") (hqa : st.qa = h :: t)
    (hfit : h.seqs.length ≤ MAX_BATCH) :
    (fairSelect st).1 = h :: ((drainWhile t h.seqs.length).1
        ++ (drainWhile st.qb (drainWhile t h.seqs.length).2.2).1) ∧
    (fairSelect st).2.lastTurn = "A" ∧
    (fairSelect st).2.qa = (drainWhile t h.seqs.length).2.1 ∧
    (fairSelect st).2.qb = (drainWhile st.qb (drainWhile t h.seqs.length).2.2).2.1 := by
  simp [fairSelect, hqa, hlt, fairFirst, hfit]

theorem fairSelect_open_B (st : ProxyState) (h : Item) (t : List Item)
    (hlt : st.lastTurn ≠ "B") (hqb : st.qb = h :: t)
    (hfit : h.seqs.length ≤ MAX_BATCH) :
    (fairSelect st).1 = h :: ((drainWhile t h.seqs.length).1
        ++ (drainWhile st.qa (drainWhile t h.seqs.length).2.2).1) ∧
    (fairSelect st).2.lastTurn = "B" ∧
    (fairSelect st).2.qb = (drainWhile t h.seqs.length).2.1 ∧
    (fairSelect st).2.qa = (drainWhile st.qa (drainWhile t h.seqs.length).2.2).2.1 := by
  simp [fairSelect, hqb, hlt, fairFirst, hfit]

theorem fairSelect_skip_A_empty (st : ProxyState)
    (hlt : st.lastTurn = "B") (hqa : st.qa = []) :
    (fairSelect st).1 = (drainWhile st.qb 0).1 ∧
    (fairSelect st).2.lastTurn = st.lastTurn := by
  rcases hqb : st.qb with _ | ⟨h, t⟩
  · simp [fairSelect, hqa, hqb, drainWhile]
  · simp [fairSelect, hqa, hqb, hlt, fairFirst, drainWhile]

theorem fairSelect_skip_A_unfit (st : ProxyState) (h : Item) (t : List Item)
    (hlt : st.lastTurn = "B") (hqa : st.qa = h :: t)
    (hfit : ¬ h.seqs.length ≤ MAX_BATCH) :
    (fairSelect st).1 = (drainWhile st.qb 0).1 ∧
    (fairSelect st).2.lastTurn = st.lastTurn ∧
    (fairSelect st).2.qa = st.qa := by
  have hd : drainWhile (h :: t) 0 = ([], h :: t, 0) := by
    simp [drainWhile, hfit]
  simp [fairSelect, hqa, hlt, fairFirst, hfit, hd]

theorem fairSelect_skip_B_empty (st : ProxyState)
    (hlt : st.lastTurn ≠ "B") (hqb : st.qb = []) :
    (fairSelect st).1 = (drainWhile st.qa 0).1 ∧
    (fairSelect st).2.lastTurn = st.lastTurn := by
  rcases hqa : st.qa with _ | ⟨h, t⟩
  · simp [fairSelect, hqa, hqb, drainWhile]
  · simp [fairSelect, hqa, hqb, hlt, fairFirst, drainWhile]

theorem fairSelect_skip_B_unfit (st : ProxyState) (h : Item) (t : List Item)
    (hlt : st.lastTurn ≠ "B") (hqb : st.qb = h :: t)
    (hfit : ¬ h.seqs.length ≤ MAX_BATCH) :
    (fairSelect st).1 = (drainWhile st.qa 0).1 ∧
    (fairSelect st).2.lastTurn = st.lastTurn ∧
    (fairSelect st).2.qb = st.qb := by
  have hd : drainWhile (h :: t) 0 = ([], h :: t, 0) := by
    simp [drainWhile, hfit]
  simp [fairSelect, hqb, hlt, fairFirst, hfit, hd]

/-! ## Lemmas about the failure path -/

theorem failBatch_cons (j : Item) (rest : List Item) (msg : String)
    (m : ResMap) :
    failBatch (j :: rest) msg m
      = failBatch rest msg
          (if m j.id = .pending then setRes m j.id (.err msg) else m) :=
  rfl

theorem failBatch_not_pending (batch : List Item) (msg : String) (m : ResMap)
    (id : Nat) (h : m id ≠ .pending) : failBatch batch msg m id = m id := by
  induction batch generalizing m with
  | nil => rfl
  | cons j rest ih =>
      rw [failBatch_cons]
      by_cases hj : m j.id = .pending
      · have hne : j.id ≠ id := fun he => h (he ▸ hj)
        rw [if_pos hj]
        have hval : setRes m j.id (.err msg) id = m id :=
          setRes_ne m j.id id (.err msg) (Ne.symm hne)
        rw [ih _ (hval ▸ h)]
        exact hval
      · rw [if_neg hj]
        exact ih m h

theorem failBatch_outside (batch : List Item) (msg : String) (m : ResMap)
    (id : Nat) (h : id ∉ batch.map Item.id) : failBatch batch msg m id = m id := by
  induction batch generalizing m with
  | nil => rfl
  | cons j rest ih =>
      have hne : j.id ≠ id := by
        intro he
        exact h (by simp [he])
      have hrest : id ∉ rest.map Item.id := fun hin => h (by simp [hin])
      rw [failBatch_cons]
      by_cases hj : m j.id = .pending
      · rw [if_pos hj]
        have hval : setRes m j.id (.err msg) id = m id :=
          setRes_ne m j.id id (.err msg) (Ne.symm hne)
        rw [ih _ hrest, hval]
      · rw [if_neg hj]
        exact ih m hrest

theorem failBatch_mem (batch : List Item) (msg : String) (m : ResMap)
    (itm : Item) (hmem : itm ∈ batch) (hp : m itm.id = .pending) :
    failBatch batch msg m itm.id = .err msg := by
  induction batch generalizing m with
  | nil => cases hmem
  | cons j rest ih =>
      rw [failBatch_cons]
      rcases List.mem_cons.mp hmem with rfl | hmem'
      · rw [if_pos hp]
        have hval : setRes m itm.id (.err msg) itm.id = .err msg :=
          setRes_self m itm.id (.err msg)
        rw [failBatch_not_pending rest msg _ itm.id (by rw [hval]; simp)]
        exact hval
      · by_cases hj : m j.id = .pending
        · rw [if_pos hj]
          by_cases hji : j.id = itm.id
          · have hval : setRes m j.id (.err msg) itm.id = .err msg := by
              rw [hji]
              exact setRes_self m itm.id (.err msg)
            rw [failBatch_not_pending rest msg _ itm.id (by rw [hval]; simp)]
            exact hval
          · have hval : setRes m j.id (.err msg) itm.id = m itm.id :=
              setRes_ne m j.id itm.id (.err msg) (Ne.symm hji)
            exact ih _ hmem' (by rw [hval]; exact hp)
        · rw [if_neg hj]
          exact ih m hmem' hp

theorem dispatchCycle_state (st : ProxyState) (ds : Downstream) (m : ResMap) :
    (dispatchCycle st ds m).1 = (dispatchSelect st).2 := by
  unfold dispatchCycle
  dsimp only
  split
  · rfl
  · cases ds <;> rfl

/-! ## Claim theorems (continued) -/

/-- C9: a request whose `sequences` list is empty or longer than
`MAX_BATCH = 5` is rejected with HTTP 400 `"Need 1–5 sequences"` and the
proxy state (all three queues) is left unchanged; no item is created or
enqueued. -/
theorem C9_validation (st : ProxyState) (id : Nat) (header : Option String)
    (seqs : List String) (h : seqs.length = 0 ∨ MAX_BATCH < seqs.length) :
    (proxyClassify st id header seqs).1 = some (400, "Need 1–5 sequences") ∧
    (proxyClassify st id header seqs).2 = st := by
  unfold proxyClassify
  rw [if_neg]
  · exact ⟨rfl, rfl⟩
  · simp only [MAX_BATCH] at h ⊢
    omega

/-- Witness for C9 at the concrete inputs of the spec's boundary cases:
zero sequences and six sequences. -/
theorem C9_validation_witness :
    ((proxyClassify (initialState .sjf) 0 none []).1
        = some (400, "Need 1–5 sequences") ∧
      (proxyClassify (initialState .sjf) 0 none []).2 = initialState .sjf) ∧
    ((proxyClassify (initialState .sjf) 1 none
          ["a", "a", "a", "a", "a", "a"]).1
        = some (400, "Need 1–5 sequences") ∧
      (proxyClassify (initialState .sjf) 1 none
          ["a", "a", "a", "a", "a", "a"]).2 = initialState .sjf) :=
  ⟨C9_validation _ 0 none [] (Or.inl rfl),
    C9_validation _ 1 none _ (Or.inr (by decide))⟩

/-- C8 counterexample: the header value `"c"` is uppercased to `"C"`,
which is outside `{A, B}`, yet under FAIR the item is enqueued into the B
queue, not the A queue as the claim states. -/
theorem C8_counterexample :
    (mkItem 1 (some "c") ["x"]).cid = "C" ∧
    (enqueue (initialState .fair) (mkItem 1 (some "c") ["x"])).qa = [] ∧
    (enqueue (initialState .fair) (mkItem 1 (some "c") ["x"])).qb
      = [mkItem 1 (some "c") ["x"]] := by
  refine ⟨by decide, ?_, ?_⟩ <;> decide

/-- C8 as amended: the ingress handler uppercases the customer header
(defaulting to `A` when absent); under FAIR an item is bucketed into the A
queue exactly when its uppercased id equals `"A"`, and every other value
(including values outside `{A, B}`) is bucketed into the B queue. -/
theorem C8_amended (st : ProxyState) (itm : Item) (s : String) :
    normalizeCid none = "A" ∧
    normalizeCid (some s) = upper s ∧
    (st.strategy = .fair → itm.cid = "A" →
      enqueue st itm = { st with qa := st.qa ++ [itm] }) ∧
    (st.strategy = .fair → itm.cid ≠ "A" →
      enqueue st itm = { st with qb := st.qb ++ [itm] }) := by
  refine ⟨rfl, rfl, ?_, ?_⟩
  · intro hs hc
    simp [enqueue, hs, hc]
  · intro hs hc
    simp [enqueue, hs, hc]

/-- Witness for C8 as amended: a concrete non-`A` customer (`"q"` ↦ `"Q"`)
lands in the B queue of the initial FAIR state. -/
theorem C8_amended_witness :
    enqueue (initialState .fair) (mkItem 2 (some "q") ["y"])
      = { initialState .fair with
          qb := (initialState .fair).qb ++ [mkItem 2 (some "q") ["y"]] } :=
  (C8_amended (initialState .fair) (mkItem 2 (some "q") ["y"]) "q").2.2.2
    rfl (by decide)

/-- C10: `last_turn` is initialised to `"B"`, so the first FAIR cycle
computes `turn = "A"`; whenever FAIR runs with `last_turn = "B"`, a
non-empty A queue and a fitting head, the batch opens with that class-A
head and `last_turn` becomes `"A"`. -/
theorem C10_first_turn (s : Strategy) (st : ProxyState) (h : Item)
    (t : List Item) (h1 : st.lastTurn = "B") (h2 : st.qa = h :: t)
    (h3 : h.seqs.length ≤ MAX_BATCH) :
    (initialState s).lastTurn = "B" ∧
    (fairSelect st).1.head? = some h ∧
    (fairSelect st).2.lastTurn = "A" := by
  have ho := fairSelect_open_A st h t h1 h2 h3
  exact ⟨rfl, by rw [ho.1]; rfl, ho.2.1⟩

/-- Witness for C10: the initial FAIR state with a single one-sequence
class-A item opens with it. -/
theorem C10_first_turn_witness :
    (initialState Strategy.fair).lastTurn = "B" ∧
    (fairSelect { initialState .fair with qa := [mkItem 3 none ["z"]] }).1.head?
      = some (mkItem 3 none ["z"]) ∧
    (fairSelect { initialState .fair with qa := [mkItem 3 none ["z"]] }).2.lastTurn
      = "A" :=
  C10_first_turn .fair _ (mkItem 3 none ["z"]) [] rfl rfl (by decide)

/-- C6: the FAIR selection cycle computes `turn` as the class opposite to
`last_turn`, admits the primary head when it fits (updating `last_turn` to
`turn`), then drains the primary and then the secondary while items fit;
when the primary is empty or its head does not fit, `last_turn` is not
updated and only the secondary contributes.  With both queues non-empty
and valid items the head always fits, so consecutive batches alternate the
class that opens them. -/
theorem C6_fair_algorithm (st : ProxyState) (h : Item) (t : List Item) :
    (st.lastTurn = "B" → st.qa = h :: t → h.seqs.length ≤ MAX_BATCH →
      (fairSelect st).1 = h :: ((drainWhile t h.seqs.length).1
          ++ (drainWhile st.qb (drainWhile t h.seqs.length).2.2).1) ∧
      (fairSelect st).2.lastTurn = "A") ∧
    (st.lastTurn ≠ "B" → st.qb = h :: t → h.seqs.length ≤ MAX_BATCH →
      (fairSelect st).1 = h :: ((drainWhile t h.seqs.length).1
          ++ (drainWhile st.qa (drainWhile t h.seqs.length).2.2).1) ∧
      (fairSelect st).2.lastTurn = "B") ∧
    (st.lastTurn = "B" → st.qa = [] →
      (fairSelect st).1 = (drainWhile st.qb 0).1 ∧
      (fairSelect st).2.lastTurn = st.lastTurn) ∧
    (st.lastTurn = "B" → st.qa = h :: t → ¬ h.seqs.length ≤ MAX_BATCH →
      (fairSelect st).1 = (drainWhile st.qb 0).1 ∧
      (fairSelect st).2.lastTurn = st.lastTurn) ∧
    (st.lastTurn ≠ "B" → st.qb = [] →
      (fairSelect st).1 = (drainWhile st.qa 0).1 ∧
      (fairSelect st).2.lastTurn = st.lastTurn) ∧
    (st.lastTurn ≠ "B" → st.qb = h :: t → ¬ h.seqs.length ≤ MAX_BATCH →
      (fairSelect st).1 = (drainWhile st.qa 0).1 ∧
      (fairSelect st).2.lastTurn = st.lastTurn) := by
  refine ⟨?_, ?_, ?_, ?_, ?_, ?_⟩
  · intro h1 h2 h3
    have ho := fairSelect_open_A st h t h1 h2 h3
    exact ⟨ho.1, ho.2.1⟩
  · intro h1 h2 h3
    have ho := fairSelect_open_B st h t h1 h2 h3
    exact ⟨ho.1, ho.2.1⟩
  · intro h1 h2
    exact fairSelect_skip_A_empty st h1 h2
  · intro h1 h2 h3
    have ho := fairSelect_skip_A_unfit st h t h1 h2 h3
    exact ⟨ho.1, ho.2.1⟩
  · intro h1 h2
    exact fairSelect_skip_B_empty st h1 h2
  · intro h1 h2 h3
    have ho := fairSelect_skip_B_unfit st h t h1 h2 h3
    exact ⟨ho.1, ho.2.1⟩

/-- Witness for C6 at a concrete state: `last_turn = "A"`, one item in
each queue; the cycle opens with the B head and flips `last_turn` to
`"B"`. -/
theorem C6_fair_algorithm_witness :
    (fairSelect
        { strategy := .fair, fifo := [], qa := [mkItem 4 none ["a"]],
          qb := [mkItem 5 (some "b") ["b"]], lastTurn := "A" }).1
      = mkItem 5 (some "b") ["b"] ::
          ((drainWhile [] 1).1
            ++ (drainWhile [mkItem 4 none ["a"]] (drainWhile [] 1).2.2).1) ∧
    (fairSelect
        { strategy := .fair, fifo := [], qa := [mkItem 4 none ["a"]],
          qb := [mkItem 5 (some "b") ["b"]], lastTurn := "A" }).2.lastTurn
      = "B" :=
  ((C6_fair_algorithm
      { strategy := .fair, fifo := [], qa := [mkItem 4 none ["a"]],
        qb := [mkItem 5 (some "b") ["b"]], lastTurn := "A" }
      (mkItem 5 (some "b") ["b"]) []).2.1)
    (by decide) rfl (by decide)

/-- C7: FCFS pops fitting items from the FIFO head; the
`BATCH_TIMEOUT_MS` wait (and second pass) happens exactly when the first
pass admitted something and the batch is below capacity, and is skipped
when the first pass filled the batch or found nothing; concatenating the
selected batch with the remaining queue reproduces the arrival order, so
admission preserves global FIFO order. -/
theorem C7_fcfs_micro_batching (q arrivals : List Item) :
    ((fcfsSelect q arrivals).2.2 = false ↔
      (drainWhile q 0).1 = [] ∨ seqCount (drainWhile q 0).1 = MAX_BATCH) ∧
    ((fcfsSelect q arrivals).2.2 = true →
      (fcfsSelect q arrivals).1 ++ (fcfsSelect q arrivals).2.1
        = q ++ arrivals) ∧
    ((fcfsSelect q arrivals).2.2 = false →
      (fcfsSelect q arrivals).1 ++ (fcfsSelect q arrivals).2.1 = q ∧
      (fcfsSelect q arrivals).1 = (drainWhile q 0).1) := by
  have htot := drainWhile_total q 0
  have hle := drainWhile_le q 0 (by norm_num [MAX_BATCH])
  have hsplit := drainWhile_split q 0
  unfold fcfsSelect
  dsimp only
  split
  · rename_i hcond
    dsimp only
    obtain ⟨hne, hlt⟩ := hcond
    refine ⟨?_, ?_, ?_⟩
    · simp only [Bool.true_eq_false, false_iff]
      push_neg
      constructor
      · intro he
        exact hne (by simp [he])
      · omega
    · intro _
      have h2 := drainWhile_split ((drainWhile q 0).2.1 ++ arrivals)
        (drainWhile q 0).2.2
      rw [List.append_assoc, h2, ← List.append_assoc, hsplit]
    · intro hf
      cases hf
  · rename_i hcond
    dsimp only
    rw [not_and_or] at hcond
    refine ⟨?_, ?_, ?_⟩
    · simp only [true_iff]
      rcases hcond with hc | hc
      · left
        have : (drainWhile q 0).1.isEmpty = true := by
          by_contra hne
          exact hc hne
        exact List.isEmpty_iff.mp this
      · right
        omega
    · intro hf
      cases hf
    · exact fun _ => ⟨hsplit, rfl⟩

/-- Witness for C7: a single one-sequence item triggers the wait (first
pass non-empty, below capacity), and the batch-plus-rest concatenation
reproduces the queue plus arrivals. -/
theorem C7_fcfs_micro_batching_witness :
    (fcfsSelect [mkItem 6 none ["w"]] []).1
        ++ (fcfsSelect [mkItem 6 none ["w"]] []).2.1
      = [mkItem 6 none ["w"]] ++ [] :=
  (C7_fcfs_micro_batching [mkItem 6 none ["w"]] []).2.1 (by decide)

/-- C5: when the downstream call fails, every batch item whose future is
still pending is resolved with the error message, already-resolved futures
are not written again, futures outside the batch are untouched, the
dispatcher proceeds to the next cycle with the post-selection state, and
the suspended ingress handler surfaces the failure as HTTP 500
`"Downstream service error: <detail>"`. -/
theorem C5_downstream_failure (batch : List Item) (msg : String) (m : ResMap)
    (itm : Item) (id lat : Nat) (st : ProxyState) :
    (itm ∈ batch → m itm.id = .pending →
      failBatch batch msg m itm.id = .err msg) ∧
    (m id ≠ .pending → failBatch batch msg m id = m id) ∧
    (id ∉ batch.map Item.id → failBatch batch msg m id = m id) ∧
    ingressRespond (.err msg) lat
      = some (.error (500, "Downstream service error: " ++ msg)) ∧
    (dispatchCycle st (.fail msg) m).1 = (dispatchSelect st).2 :=
  ⟨fun hm hp => failBatch_mem batch msg m itm hm hp,
    fun hnp => failBatch_not_pending batch msg m id hnp,
    fun hout => failBatch_outside batch msg m id hout,
    rfl,
    dispatchCycle_state st _ m⟩

/-- Witness for C5 at a concrete batch and future map: the pending item is
failed with the message, a done future and an unrelated id are left
alone. -/
theorem C5_downstream_failure_witness :
    failBatch [mkItem 7 none ["s"]] "boom" (fun _ => Res.pending)
        (mkItem 7 none ["s"]).id = .err "boom" ∧
    failBatch [mkItem 7 none ["s"]] "boom"
        (fun j => if j = 9 then Res.ok ["lbl"] else Res.pending) 9
      = Res.ok ["lbl"] ∧
    failBatch [mkItem 7 none ["s"]] "boom" (fun _ => Res.pending) 8
      = Res.pending :=
  ⟨(C5_downstream_failure [mkItem 7 none ["s"]] "boom" (fun _ => Res.pending)
      (mkItem 7 none ["s"]) 0 0 (initialState .sjf)).1
        (by decide) rfl,
    by
      have := (C5_downstream_failure [mkItem 7 none ["s"]] "boom"
        (fun j => if j = 9 then Res.ok ["lbl"] else Res.pending)
        (mkItem 7 none ["s"]) 9 0 (initialState .sjf)).2.1 (by decide)
      simpa using this,
    by
      have := (C5_downstream_failure [mkItem 7 none ["s"]] "boom"
        (fun _ => Res.pending) (mkItem 7 none ["s"]) 8 0
        (initialState .sjf)).2.2.1 (by decide)
      simpa using this⟩

/-! ## Lemmas about removal and the SJF loop -/

theorem removeFirst_eq_filter (fifo : List Item) (id : Nat)
    (h : (fifo.map Item.id).Nodup) :
    removeFirst fifo id = fifo.filter (fun x => decide (x.id ≠ id)) := by
  induction fifo with
  | nil => rfl
  | cons j rest ih =>
      simp only [List.map_cons, List.nodup_cons] at h
      by_cases hj : j.id = id
      · rw [removeFirst, if_pos hj, List.filter_cons_of_neg (by simp [hj])]
        symm
        apply List.filter_eq_self.mpr
        intro x hx
        simp only [decide_eq_true_eq]
        intro hxid
        exact h.1 (by rw [hj, ← hxid]; exact List.mem_map_of_mem Item.id hx)
      · rw [removeFirst, if_neg hj, List.filter_cons_of_pos (by simp [hj]),
          ih h.2]

theorem removeIds_eq_filter (fifo : List Item) (ids : List Nat)
    (h : (fifo.map Item.id).Nodup) :
    removeIds fifo ids = fifo.filter (fun x => decide (x.id ∉ ids)) := by
  induction ids generalizing fifo with
  | nil =>
      rw [removeIds, List.foldl_nil, List.filter_eq_self.mpr]
      intro x _
      simp
  | cons i0 rest ih =>
      have h1 : removeIds fifo (i0 :: rest)
          = removeIds (removeFirst fifo i0) rest := rfl
      have hnd : (((fifo.filter (fun x => decide (x.id ≠ i0))).map Item.id)).Nodup :=
        List.Nodup.sublist (List.Sublist.map Item.id (List.filter_sublist fifo)) h
      rw [h1, removeFirst_eq_filter fifo i0 h, ih _ hnd, List.filter_filter]
      apply List.filter_congr
      intro x _
      by_cases h0 : x.id = i0 <;> by_cases hr : x.id ∈ rest <;>
        simp [h0, hr, List.mem_cons]

theorem sjfLoop_snd (l : List Item) (t : Nat) (batch fifo : List Item) :
    (sjfLoop l t batch fifo).2 = removeIds fifo ((greedyAdmit l t).map Item.id) := by
  induction l generalizing t batch fifo with
  | nil => rfl
  | cons i rest ih =>
      by_cases hf : t + i.seqs.length ≤ MAX_BATCH
      · simp only [sjfLoop, greedyAdmit, hf, if_pos, List.map_cons]
        rw [ih]
        rfl
      · simp only [sjfLoop, greedyAdmit, hf, if_neg, not_false_iff, List.map_nil]
        rfl

/-! ## Lemmas about non-empty selections -/

theorem greedyAdmit_ne_nil {l : List Item} (hne : l ≠ [])
    (hv : ∀ i ∈ l, i.seqs.length ≤ MAX_BATCH) : greedyAdmit l 0 ≠ [] := by
  match l with
  | [] => exact absurd rfl hne
  | h :: t =>
      have hfit : h.seqs.length ≤ MAX_BATCH := hv h (List.mem_cons_self h t)
      simp [greedyAdmit, hfit]

theorem drainWhile_cons_fit (h : Item) (t : List Item) (total : Nat)
    (hf : total + h.seqs.length ≤ MAX_BATCH) :
    (drainWhile (h :: t) total).1
      = h :: (drainWhile t (total + h.seqs.length)).1 := by
  simp [drainWhile, hf]

theorem sjfSelect_ne_nil (q : List Item) (hne : q ≠ [])
    (hv : ∀ i ∈ q, i.seqs.length ≤ MAX_BATCH) : (sjfSelect q).1 ≠ [] := by
  rw [sjfSelect_fst, if_neg (by simp [List.isEmpty_iff, hne])]
  apply greedyAdmit_ne_nil
  · intro hs
    have := (List.perm_insertionSort (fun a b : Item => a.maxlen ≤ b.maxlen) q).length_eq
    rw [sortedByMaxlen] at hs
    rw [hs] at this
    exact hne (List.eq_nil_of_length_eq_zero this.symm)
  · intro i hi
    exact hv i ((List.perm_insertionSort _ q).mem_iff.mp hi)

theorem fcfsSelect_ne_nil (q arr : List Item) (hne : q ≠ [])
    (hv : ∀ i ∈ q, i.seqs.length ≤ MAX_BATCH) : (fcfsSelect q arr).1 ≠ [] := by
  have h1 : (drainWhile q 0).1 ≠ [] := by
    rw [drainWhile_fst_eq_greedyAdmit]
    exact greedyAdmit_ne_nil hne hv
  unfold fcfsSelect
  dsimp only
  split
  · dsimp only
    intro hc
    exact h1 (List.append_eq_nil.mp hc).1
  · exact h1

theorem fairSelect_fifo (st : ProxyState) : (fairSelect st).2.fifo = st.fifo := by
  unfold fairSelect
  dsimp only
  split <;> rfl

theorem fairSelect_ne_nil (st : ProxyState) (hne : ¬(st.qa = [] ∧ st.qb = []))
    (hva : ∀ i ∈ st.qa, i.seqs.length ≤ MAX_BATCH)
    (hvb : ∀ i ∈ st.qb, i.seqs.length ≤ MAX_BATCH) : (fairSelect st).1 ≠ [] := by
  by_cases hlt : st.lastTurn = "B"
  · rcases hqa : st.qa with _ | ⟨h, t⟩
    · rcases hqb : st.qb with _ | ⟨h, t⟩
      · exact absurd ⟨hqa, hqb⟩ hne
      · have hf : 0 + h.seqs.length ≤ MAX_BATCH := by
          have := hvb h (by rw [hqb]; exact List.mem_cons_self h t)
          omega
        rw [(fairSelect_skip_A_empty st hlt hqa).1, hqb,
          drainWhile_cons_fit h t 0 hf]
        exact List.cons_ne_nil _ _
    · have hf : h.seqs.length ≤ MAX_BATCH :=
        hva h (by rw [hqa]; exact List.mem_cons_self h t)
      rw [(fairSelect_open_A st h t hlt hqa hf).1]
      exact List.cons_ne_nil _ _
  · rcases hqb : st.qb with _ | ⟨h, t⟩
    · rcases hqa : st.qa with _ | ⟨h, t⟩
      · exact absurd ⟨hqa, hqb⟩ hne
      · have hf : 0 + h.seqs.length ≤ MAX_BATCH := by
          have := hva h (by rw [hqa]; exact List.mem_cons_self h t)
          omega
        rw [(fairSelect_skip_B_empty st hlt hqb).1, hqa,
          drainWhile_cons_fit h t 0 hf]
        exact List.cons_ne_nil _ _
    · have hf : h.seqs.length ≤ MAX_BATCH :=
        hvb h (by rw [hqb]; exact List.mem_cons_self h t)
      rw [(fairSelect_open_B st h t hlt hqb hf).1]
      exact List.cons_ne_nil _ _

/-! ## Claim theorems (continued) -/

/-- C2 counterexample: with queued items of 3, 3 and 1 sequences (max_len
1, 2, 3, already FIFO-sorted), the third item fits the remaining capacity
(3 + 1 ≤ 5) but the SJF loop `break`s at the second item and never reaches
it: the code is prefix-greedy, not the best-fit-after-sort walk the claim
describes (which would admit items 1 and 3). -/
theorem C2_counterexample :
    (sjfSelect [mkItem 10 none ["a", "a", "a"],
        mkItem 11 none ["bb", "bb", "bb"], mkItem 12 none ["ccc"]]).1
      = [mkItem 10 none ["a", "a", "a"]] ∧
    seqCount [mkItem 10 none ["a", "a", "a"]]
        + (mkItem 12 none ["ccc"]).seqs.length ≤ MAX_BATCH ∧
    mkItem 12 none ["ccc"] ∉
      (sjfSelect [mkItem 10 none ["a", "a", "a"],
        mkItem 11 none ["bb", "bb", "bb"], mkItem 12 none ["ccc"]]).1 ∧
    sjfSelectSpec [mkItem 10 none ["a", "a", "a"],
        mkItem 11 none ["bb", "bb", "bb"], mkItem 12 none ["ccc"]]
      = [mkItem 10 none ["a", "a", "a"], mkItem 12 none ["ccc"]] := by
  refine ⟨?_, ?_, ?_, ?_⟩ <;> decide

/-- C2 as amended: SJF snapshots the FIFO, stably sorts it by `max_len`
ascending (the sorted view is a permutation, is pairwise ordered by
`max_len`, and any FIFO-ordered pair with non-decreasing keys — in
particular ties — keeps its relative order), then admits the maximal
greedy prefix of the sorted view, stopping at the first item that does not
fit; admitted items are removed from the FIFO. -/
theorem C2_sjf_prefix_greedy (q : List Item) (hnd : (q.map Item.id).Nodup) :
    (sjfSelect q).1 = greedyAdmit (sortedByMaxlen q) 0 ∧
    List.Perm (sortedByMaxlen q) q ∧
    List.Pairwise (fun a b : Item => a.maxlen ≤ b.maxlen) (sortedByMaxlen q) ∧
    (∀ a b : Item, a.maxlen ≤ b.maxlen → List.Sublist [a, b] q →
      List.Sublist [a, b] (sortedByMaxlen q)) ∧
    (sjfSelect q).2
      = q.filter (fun x => decide (x.id ∉ (sjfSelect q).1.map Item.id)) := by
  haveI instTot : IsTotal Item (fun a b : Item => a.maxlen ≤ b.maxlen) :=
    ⟨fun a b => Nat.le_total a.maxlen b.maxlen⟩
  haveI instTrans : IsTrans Item (fun a b : Item => a.maxlen ≤ b.maxlen) :=
    ⟨fun _ _ _ hab hbc => le_trans hab hbc⟩
  have hfst : (sjfSelect q).1 = greedyAdmit (sortedByMaxlen q) 0 := by
    rw [sjfSelect_fst]
    by_cases h : q.isEmpty
    · have : q = [] := List.isEmpty_iff.mp h
      subst this
      simp [sortedByMaxlen, greedyAdmit]
    · simp [h]
  refine ⟨hfst, List.perm_insertionSort _ q, List.sorted_insertionSort _ q,
    fun a b hab hsub => List.pair_sublist_insertionSort hab hsub, ?_⟩
  by_cases h : q.isEmpty
  · have : q = [] := List.isEmpty_iff.mp h
    subst this
    rfl
  · have hsnd : (sjfSelect q).2
        = removeIds q ((greedyAdmit (sortedByMaxlen q) 0).map Item.id) := by
      rw [sjfSelect, if_neg h]
      exact sjfLoop_snd (sortedByMaxlen q) 0 [] q
    rw [hsnd, hfst]
    exact removeIds_eq_filter q _ hnd

/-- Witness for C2 as amended at a one-item queue. -/
theorem C2_sjf_prefix_greedy_witness :
    (sjfSelect [mkItem 13 none ["d"]]).1
      = greedyAdmit (sortedByMaxlen [mkItem 13 none ["d"]]) 0 :=
  (C2_sjf_prefix_greedy [mkItem 13 none ["d"]] (by decide)).1

/-- C3 counterexample: with FCFS active and a class-A item stranded in
`q_a` (left there by a FAIR episode), the dispatcher builds an empty batch
and leaves the state — in particular `q_a` — completely unchanged, so the
stranded item is never drained while FCFS stays active; the claim says a
non-empty batch must be built whenever any of the three queues is
non-empty. -/
theorem C3_counterexample :
    (dispatchSelect strandedState).1 = [] ∧
    strandedState.qa ≠ [] ∧
    (dispatchSelect strandedState).2 = strandedState := by
  refine ⟨?_, ?_, ?_⟩ <;> decide

/-- C3 as amended: each strategy consults only its own queue(s).  Under
SJF/FCFS the per-customer queues are untouched and a non-empty batch is
built exactly when the global FIFO is non-empty (for valid items); under
FAIR the global FIFO is untouched and a non-empty batch is built exactly
when a per-customer queue is non-empty.  Items stranded in a queue the
active strategy does not consult are not drained while it stays active. -/
theorem C3_queue_consultation (st : ProxyState) :
    (st.strategy ≠ .fair →
      (dispatchSelect st).2.qa = st.qa ∧ (dispatchSelect st).2.qb = st.qb ∧
      ((∀ i ∈ st.fifo, i.seqs.length ≤ MAX_BATCH) →
        ((dispatchSelect st).1 ≠ [] ↔ st.fifo ≠ []))) ∧
    (st.strategy = .fair →
      (dispatchSelect st).2.fifo = st.fifo ∧
      ((∀ i ∈ st.qa, i.seqs.length ≤ MAX_BATCH) →
        (∀ i ∈ st.qb, i.seqs.length ≤ MAX_BATCH) →
        ((dispatchSelect st).1 ≠ [] ↔ ¬(st.qa = [] ∧ st.qb = [])))) := by
  constructor
  · intro hnf
    match hs : st.strategy with
    | .fair => exact absurd hs hnf
    | .sjf =>
        refine ⟨by simp [dispatchSelect, hs], by simp [dispatchSelect, hs], ?_⟩
        intro hv
        simp only [dispatchSelect, hs]
        constructor
        · intro hb hf
          apply hb
          rw [hf]
          rfl
        · intro hf
          exact sjfSelect_ne_nil st.fifo hf hv
    | .fcfs =>
        refine ⟨by simp [dispatchSelect, hs], by simp [dispatchSelect, hs], ?_⟩
        intro hv
        simp only [dispatchSelect, hs]
        constructor
        · intro hb hf
          apply hb
          rw [hf]
          rfl
        · intro hf
          exact fcfsSelect_ne_nil st.fifo [] hf hv
  · intro hs
    have hd : dispatchSelect st = fairSelect st := by
      unfold dispatchSelect
      rw [hs]
    refine ⟨by rw [hd]; exact fairSelect_fifo st, ?_⟩
    intro hva hvb
    rw [hd]
    constructor
    · intro hb hboth
      apply hb
      unfold fairSelect
      rw [if_pos (by simp [hboth.1, hboth.2])]
    · intro hne
      exact fairSelect_ne_nil st hne hva hvb

/-- Witness for C3 as amended: the stranded-queue state from the
counterexample satisfies the amended characterisation — FCFS leaves
`q_a`/`q_b` unchanged and builds no batch because the FIFO is empty. -/
theorem C3_queue_consultation_witness :
    (dispatchSelect strandedState).2.qa = strandedState.qa :=
  (((C3_queue_consultation strandedState).1) (by decide)).1

/-! ## Lemmas about the demultiplexer -/

theorem zip_append_left {α β : Type} (xs ys : List α) (l : List β) :
    (xs ++ ys).zip l = xs.zip l ++ ys.zip (l.drop xs.length) := by
  induction xs generalizing l with
  | nil => simp
  | cons x xs ih =>
      match l with
      | [] => simp
      | b :: l' => simp [List.zip_cons_cons, ih l']

theorem zip_take_left {α β : Type} (xs : List α) (l : List β) :
    xs.zip (l.take xs.length) = xs.zip l := by
  induction xs generalizing l with
  | nil => simp
  | cons x xs ih =>
      match l with
      | [] => simp
      | b :: l' => simp [List.zip_cons_cons, ih l']

theorem groupResults_append (ps qs : List ((Item × Nat) × String))
    (acc : List ReqEntry) :
    groupResults (ps ++ qs) acc = groupResults qs (groupResults ps acc) := by
  induction ps generalizing acc with
  | nil => rfl
  | cons pr rest ih =>
      match pr with
      | ((itm, pos), lab) =>
          rw [List.cons_append, groupResults, groupResults]
          exact ih _

theorem resolveEntries_append (es fs : List ReqEntry) (m : ResMap) :
    resolveEntries (es ++ fs) m = resolveEntries fs (resolveEntries es m) := by
  unfold resolveEntries
  exact List.foldl_append _ _ _ _

theorem mem_groupResults_ids (ps : List ((Item × Nat) × String))
    (acc : List ReqEntry) (e : ReqEntry) (he : e ∈ groupResults ps acc) :
    e.item.id ∈ acc.map (fun x => x.item.id) ∨
      e.item.id ∈ ps.map (fun pr => pr.1.1.id) := by
  induction ps generalizing acc with
  | nil => exact Or.inl (List.mem_map_of_mem _ he)
  | cons pr rest ih =>
      match pr with
      | ((itm, pos), lab) =>
          rw [groupResults] at he
          rcases ih _ he with hacc | hrest
          · have hids : ∀ (acc1 : List ReqEntry),
                (acc1.map (fun e =>
                  if e.item.id = itm.id
                  then ({ item := e.item,
                          results := e.results.set pos (some lab) } : ReqEntry)
                  else e)).map (fun x => x.item.id)
                  = acc1.map (fun x => x.item.id) := by
              intro acc1
              rw [List.map_map]
              apply List.map_congr_left
              intro x _
              by_cases hx : x.item.id = itm.id <;> simp [hx]
            rw [hids] at hacc
            by_cases hin : acc.any (fun e => e.item.id = itm.id)
            · rw [if_pos hin] at hacc
              exact Or.inl hacc
            · rw [if_neg hin, List.map_append] at hacc
              rcases List.mem_append.mp hacc with h1 | h1
              · exact Or.inl h1
              · simp only [List.map_cons, List.map_nil, List.mem_cons] at h1
                rcases h1 with h1 | h1
                · exact Or.inr (by simp [h1])
                · cases h1
          · exact Or.inr (by simp only [List.map_cons, List.mem_cons]; right; exact hrest)

theorem map_fixpoints {α : Type} (l : List α) (f : α → α)
    (h : ∀ x ∈ l, f x = x) : l.map f = l := by
  conv_rhs => rw [← List.map_id l]
  exact List.map_congr_left h

theorem groupResults_disjoint_prefix (ps : List ((Item × Nat) × String))
    (acc₀ : List ReqEntry)
    (h : ∀ pr ∈ ps, pr.1.1.id ∉ acc₀.map (fun e => e.item.id)) :
    ∀ acc₁ : List ReqEntry,
      groupResults ps (acc₀ ++ acc₁) = acc₀ ++ groupResults ps acc₁ := by
  induction ps with
  | nil => intro acc₁; rfl
  | cons pr rest ih =>
      intro acc₁
      match pr with
      | ((itm, pos), lab) =>
          have htl : ∀ pr ∈ rest, pr.1.1.id ∉ acc₀.map (fun e => e.item.id) :=
            fun pr hpr => h pr (List.mem_cons_of_mem _ hpr)
          have hitm : itm.id ∉ acc₀.map (fun e => e.item.id) :=
            h _ (List.mem_cons_self _ _)
          have hpt : ∀ x ∈ acc₀, x.item.id ≠ itm.id := by
            intro x hx hc
            exact hitm (by rw [← hc]; exact List.mem_map_of_mem _ hx)
          have hany : acc₀.any (fun e => e.item.id = itm.id) = false := by
            rw [List.any_eq_false]
            intro e he
            simp only [decide_eq_true_eq]
            exact hpt e he
          rw [groupResults, groupResults, List.any_append, hany, Bool.false_or]
          by_cases hc : acc₁.any (fun e => e.item.id = itm.id)
          · rw [if_pos hc, if_pos hc, List.map_append,
              map_fixpoints acc₀ _ (by
                intro x hx
                simp [hpt x hx])]
            exact ih htl _
          · rw [if_neg hc, if_neg hc, List.append_assoc, List.map_append,
              map_fixpoints acc₀ _ (by
                intro x hx
                simp [hpt x hx])]
            exact ih htl _

theorem groupResults_same_item (itm : Item) (ps : List ((Item × Nat) × String))
    (hall : ∀ pr ∈ ps, pr.1.1 = itm) : ∀ b : Buffer,
    groupResults ps [⟨itm, b⟩]
      = [⟨itm, ps.foldl (fun bb pr => bb.set pr.1.2 (some pr.2)) b⟩] := by
  induction ps with
  | nil => intro b; rfl
  | cons pr rest ih =>
      intro b
      match pr with
      | ((itm', pos), lab) =>
          have heq : itm' = itm := hall _ (List.mem_cons_self _ _)
          subst heq
          rw [groupResults, if_pos (by simp), List.foldl_cons]
          have hmap : (([⟨itm', b⟩] : List ReqEntry)).map
              (fun e => if e.item.id = itm'.id
                then ⟨e.item, e.results.set pos (some lab)⟩
                else e)
              = ([⟨itm', b.set pos (some lab)⟩] : List ReqEntry) := by
            simp
          rw [hmap]
          exact ih (fun pr hpr => hall pr (List.mem_cons_of_mem _ hpr)) _

theorem foldl_set_fill (itm : Item) : ∀ (n : Nat) (labs : List String)
    (pre : Buffer) (j : Nat), j = pre.length →
    List.foldl (fun (bb : Buffer) (pr : (Item × Nat) × String) =>
        bb.set pr.1.2 (some pr.2))
      (pre ++ List.replicate n none)
      (((List.range' j n).map (fun p => (itm, p))).zip labs)
      = pre ++ (labs.take n).map some
          ++ List.replicate (n - labs.length) none := by
  intro n
  induction n with
  | zero => intro labs pre j _; simp
  | succ m ih =>
      intro labs pre j hj
      match labs with
      | [] => simp
      | lab :: labs' =>
          subst hj
          rw [List.range'_succ, List.map_cons, List.zip_cons_cons,
            List.foldl_cons]
          have hset : (pre ++ List.replicate (m + 1) none).set pre.length
              (some lab) = (pre ++ [some lab]) ++ List.replicate m none := by
            rw [List.replicate_succ, List.set_append,
              if_neg (lt_irrefl pre.length), Nat.sub_self]
            rw [show (((none : Option String) :: List.replicate m none).set 0
                (some lab)) = some lab :: List.replicate m none from rfl]
            rw [← List.append_cons]
          dsimp only
          rw [hset, ih labs' (pre ++ [some lab]) (pre.length + 1) (by simp)]
          simp [List.append_assoc]

theorem groupResults_single_cons (itm : Item) (lab : String)
    (labs' : List String) (m : Nat) (hm : itm.seqs.length = m + 1) :
    groupResults
        (((List.range itm.seqs.length).map (fun p => (itm, p))).zip
          (lab :: labs')) []
      = [⟨itm, ((lab :: labs').take itm.seqs.length).map some
          ++ List.replicate (itm.seqs.length - (labs'.length + 1)) none⟩] := by
  rw [hm, List.range_eq_range', List.range'_succ, List.map_cons,
    List.zip_cons_cons, groupResults, if_neg (by simp)]
  have hmap : (([] ++ [⟨itm, List.replicate itm.seqs.length none⟩]
        : List ReqEntry)).map
      (fun e => if e.item.id = itm.id
        then ⟨e.item, e.results.set 0 (some lab)⟩
        else e)
      = ([⟨itm, (List.replicate itm.seqs.length none).set 0 (some lab)⟩]
        : List ReqEntry) := by
    simp
  rw [hmap]
  have hb : (List.replicate itm.seqs.length none).set 0 (some lab)
      = [some lab] ++ List.replicate m none := by
    rw [hm, List.replicate_succ]
    rfl
  rw [hb]
  have hall : ∀ pr ∈ ((List.range' 1 m).map (fun p => (itm, p))).zip labs',
      pr.1.1 = itm := by
    intro pr hpr
    have h1 := (List.of_mem_zip hpr).1
    rcases List.mem_map.mp h1 with ⟨p, _, hp⟩
    rw [← hp]
  rw [groupResults_same_item itm _ hall _,
    foldl_set_fill itm m labs' [some lab] (0 + 1) rfl]
  simp [List.take_succ_cons, Nat.succ_sub_succ]

theorem resolveEntries_cons (e : ReqEntry) (rest : List ReqEntry) (m : ResMap) :
    resolveEntries (e :: rest) m
      = resolveEntries rest
          (if e.results.all Option.isSome ∧ m e.item.id = .pending
           then setRes m e.item.id (.ok (e.results.filterMap (fun x => x)))
           else m) :=
  rfl

theorem resolveEntries_outside (entries : List ReqEntry) (m : ResMap)
    (id : Nat) (h : id ∉ entries.map (fun e => e.item.id)) :
    resolveEntries entries m id = m id := by
  induction entries generalizing m with
  | nil => rfl
  | cons e rest ih =>
      have hne : e.item.id ≠ id := by
        intro hc
        exact h (by simp [hc])
      have hrest : id ∉ rest.map (fun e => e.item.id) := fun hin =>
        h (by simp [hin])
      rw [resolveEntries_cons]
      by_cases hcond : e.results.all Option.isSome ∧ m e.item.id = .pending
      · rw [if_pos hcond, ih _ hrest,
          setRes_ne m e.item.id id _ (Ne.symm hne)]
      · rw [if_neg hcond, ih _ hrest]

theorem buildIdxMap_cons (itm : Item) (rest : List Item) :
    buildIdxMap (itm :: rest)
      = (List.range itm.seqs.length).map (fun p => (itm, p))
          ++ buildIdxMap rest := by
  simp [buildIdxMap]

theorem buildIdxMap_fst_mem (batch : List Item) (pr : Item × Nat)
    (h : pr ∈ buildIdxMap batch) : pr.1 ∈ batch := by
  induction batch with
  | nil => cases h
  | cons itm rest ih =>
      rw [buildIdxMap_cons] at h
      rcases List.mem_append.mp h with h1 | h1
      · rcases List.mem_map.mp h1 with ⟨p, _, hp⟩
        rw [← hp]
        exact List.mem_cons_self _ _
      · exact List.mem_cons_of_mem _ (ih h1)

theorem demux_outside (batch : List Item) (labels : List String) (m : ResMap)
    (id : Nat) (h : id ∉ batch.map Item.id) : demux batch labels m id = m id := by
  apply resolveEntries_outside
  intro hin
  rcases List.mem_map.mp hin with ⟨e, he, heid⟩
  rcases mem_groupResults_ids _ _ _ he with h0 | h0
  · simp at h0
  · rcases List.mem_map.mp h0 with ⟨pr, hpr, hprid⟩
    have h1 : pr.1 ∈ buildIdxMap batch := (List.of_mem_zip hpr).1
    have h2 : pr.1.1 ∈ batch := buildIdxMap_fst_mem _ _ h1
    apply h
    rw [← heid, ← hprid]
    exact List.mem_map_of_mem Item.id h2

theorem demux_cons (itm : Item) (rest : List Item) (labels : List String)
    (m : ResMap) (hid : itm.id ∉ rest.map Item.id) :
    demux (itm :: rest) labels m
      = demux rest (labels.drop itm.seqs.length)
          (resolveEntries
            (groupResults
              (((List.range itm.seqs.length).map (fun p => (itm, p))).zip
                labels) [])
            m) := by
  unfold demux
  rw [buildIdxMap_cons, zip_append_left,
    show ((List.range itm.seqs.length).map (fun p => (itm, p))).length
      = itm.seqs.length by simp,
    groupResults_append]
  have hdisj : ∀ pr ∈ (buildIdxMap rest).zip (labels.drop itm.seqs.length),
      pr.1.1.id ∉
        (groupResults
          (((List.range itm.seqs.length).map (fun p => (itm, p))).zip labels)
          []).map (fun e => e.item.id) := by
    intro pr hpr hin
    rcases List.mem_map.mp hin with ⟨e, he, heid⟩
    rcases mem_groupResults_ids _ _ _ he with h0 | h0
    · simp at h0
    · rcases List.mem_map.mp h0 with ⟨pr', hpr', hprid'⟩
      have hpr'1 : pr'.1.1 = itm := by
        have h1 := (List.of_mem_zip hpr').1
        rcases List.mem_map.mp h1 with ⟨p, _, hp⟩
        rw [← hp]
      have h2 : pr.1.1 ∈ rest :=
        buildIdxMap_fst_mem _ _ (List.of_mem_zip hpr).1
      apply hid
      rw [show itm.id = pr.1.1.id by rw [← heid, ← hprid', hpr'1]]
      exact List.mem_map_of_mem Item.id h2
  have hpre := groupResults_disjoint_prefix _ _ hdisj []
  rw [List.append_nil] at hpre
  rw [hpre, resolveEntries_append]

theorem all_isSome_replicate_none (k : Nat) :
    (List.replicate k (none : Option String)).all Option.isSome
      = decide (k = 0) := by
  cases k with
  | zero => rfl
  | succ n => simp [List.replicate_succ]

theorem filterMap_id_map_some (l : List String) :
    (l.map some).filterMap (fun x => x) = l := by
  induction l with
  | nil => rfl
  | cons x xs ih => simp [List.filterMap_cons, ih]

theorem seqCount_take_pos (l : List Item) (k : Nat)
    (hval : ∀ i ∈ l, 1 ≤ i.seqs.length) (hk : k < l.length) :
    1 ≤ seqCount (l.take (k + 1)) := by
  match l with
  | [] => exact absurd hk (by simp)
  | i :: rest =>
      rw [List.take_succ_cons, seqCount_cons]
      have := hval i (List.mem_cons_self _ _)
      omega

theorem resolveEntries_nil (m : ResMap) : resolveEntries [] m = m := rfl

theorem all_isSome_map_some (l : List String) :
    (l.map some).all Option.isSome = true := by
  rw [List.all_eq_true]
  intro x hx
  rcases List.mem_map.mp hx with ⟨y, _, hy⟩
  rw [← hy]
  rfl

theorem demux_pointwise (batch : List Item) : ∀ (labels : List String)
    (m : ResMap), (batch.map Item.id).Nodup →
    (∀ i ∈ batch, 1 ≤ i.seqs.length) →
    (∀ i ∈ batch, m i.id = .pending) →
    ∀ (k : Nat) (hk : k < batch.length),
      demux batch labels m (batch.get ⟨k, hk⟩).id
        = if seqCount (batch.take (k + 1)) ≤ labels.length
          then .ok ((labels.drop (seqCount (batch.take k))).take
              (batch.get ⟨k, hk⟩).seqs.length)
          else .pending := by
  induction batch with
  | nil =>
      intro labels m _ _ _ k hk
      exact absurd hk (by simp)
  | cons itm rest ih =>
      intro labels m hnd hval hpend k hk
      simp only [List.map_cons, List.nodup_cons] at hnd
      have hv1 : 1 ≤ itm.seqs.length := hval itm (List.mem_cons_self _ _)
      have hvrest : ∀ i ∈ rest, 1 ≤ i.seqs.length := fun i hi =>
        hval i (List.mem_cons_of_mem _ hi)
      rw [demux_cons itm rest labels m hnd.1]
      cases labels with
      | nil =>
          have hm : resolveEntries
              (groupResults
                (((List.range itm.seqs.length).map (fun p => (itm, p))).zip
                  ([] : List String)) []) m = m := by
            rw [List.zip_nil_right]
            rfl
          rw [hm, List.drop_nil]
          cases k with
          | zero =>
              show demux rest [] m itm.id = _
              rw [demux_outside rest [] m itm.id hnd.1,
                hpend itm (List.mem_cons_self _ _), if_neg]
              rw [List.take_succ_cons, seqCount_cons]
              simp only [List.length_nil, List.take_zero, seqCount_nil]
              omega
          | succ k =>
              have hk' : k < rest.length := by
                simpa using Nat.lt_of_succ_lt_succ hk
              simp only [List.get_cons_succ]
              rw [ih [] m hnd.2 hvrest
                (fun i hi => hpend i (List.mem_cons_of_mem _ hi)) k hk']
              have hs1 : 1 ≤ seqCount (rest.take (k + 1)) :=
                seqCount_take_pos rest k hvrest hk'
              rw [if_neg (by simp only [List.length_nil]; omega),
                if_neg (by
                  rw [List.take_succ_cons, seqCount_cons]
                  simp only [List.length_nil]
                  omega)]
      | cons lab labs' =>
          obtain ⟨mm, hmm⟩ : ∃ mm, itm.seqs.length = mm + 1 :=
            ⟨itm.seqs.length - 1, by omega⟩
          rw [groupResults_single_cons itm lab labs' mm hmm]
          cases k with
          | zero =>
              show demux rest ((lab :: labs').drop itm.seqs.length) _ itm.id
                = _
              rw [demux_outside rest _ _ itm.id hnd.1, resolveEntries_cons,
                resolveEntries_nil]
              by_cases hfit : itm.seqs.length ≤ labs'.length + 1
              · have hk0 : itm.seqs.length - (labs'.length + 1) = 0 := by
                  omega
                rw [hk0, List.replicate_zero, List.append_nil]
                rw [if_pos ⟨all_isSome_map_some _,
                  hpend itm (List.mem_cons_self _ _)⟩]
                rw [setRes_self, filterMap_id_map_some]
                rw [if_pos (by
                  rw [List.take_succ_cons, seqCount_cons]
                  simp only [List.take_zero, seqCount_nil, List.length_cons]
                  omega)]
                simp [seqCount_nil]
              · have hk1 : itm.seqs.length - (labs'.length + 1) ≠ 0 := by
                  omega
                have hne : ((((lab :: labs').take itm.seqs.length).map some
                    ++ List.replicate
                      (itm.seqs.length - (labs'.length + 1)) none).all
                    Option.isSome) = false := by
                  simp [List.all_append, all_isSome_replicate_none, hk1]
                rw [if_neg (by
                  intro hcon
                  rw [hne] at hcon
                  exact Bool.false_ne_true hcon.1)]
                rw [hpend itm (List.mem_cons_self _ _)]
                rw [if_neg (by
                  rw [List.take_succ_cons, seqCount_cons]
                  simp only [List.take_zero, seqCount_nil, List.length_cons]
                  omega)]
          | succ k =>
              have hk' : k < rest.length := by
                simpa using Nat.lt_of_succ_lt_succ hk
              have hpend1 : ∀ i ∈ rest,
                  resolveEntries
                    [⟨itm, ((lab :: labs').take itm.seqs.length).map some
                      ++ List.replicate
                        (itm.seqs.length - (labs'.length + 1)) none⟩] m i.id
                    = .pending := by
                intro i hi
                have hne : i.id ≠ itm.id := by
                  intro hc
                  exact hnd.1 (by rw [← hc]; exact List.mem_map_of_mem _ hi)
                rw [resolveEntries_outside _ m i.id (by simp [hne])]
                exact hpend i (List.mem_cons_of_mem _ hi)
              simp only [List.get_cons_succ]
              rw [ih _ _ hnd.2 hvrest hpend1 k hk']
              have hs1 : 1 ≤ seqCount (rest.take (k + 1)) :=
                seqCount_take_pos rest k hvrest hk'
              by_cases hcond : seqCount (rest.take (k + 1))
                  ≤ ((lab :: labs').drop itm.seqs.length).length
              · rw [if_pos hcond, if_pos (by
                  rw [List.take_succ_cons, seqCount_cons]
                  rw [List.length_drop] at hcond
                  simp only [List.length_cons] at hcond ⊢
                  omega)]
                rw [List.drop_drop, List.take_succ_cons, seqCount_cons]
              · rw [if_neg hcond, if_neg (by
                  rw [List.take_succ_cons, seqCount_cons]
                  rw [List.length_drop] at hcond
                  simp only [List.length_cons] at hcond ⊢
                  omega)]

theorem buildIdxMap_length (batch : List Item) :
    (buildIdxMap batch).length = (flatten batch).length := by
  induction batch with
  | nil => rfl
  | cons itm rest ih =>
      rw [buildIdxMap_cons]
      simp only [flatten, List.flatMap_cons, List.length_append,
        List.length_map, List.length_range]
      simp only [flatten] at ih
      rw [ih]

theorem demux_take (batch : List Item) (labels : List String) (m : ResMap) :
    demux batch labels m = demux batch (labels.take (flatten batch).length) m := by
  unfold demux
  rw [← buildIdxMap_length, zip_take_left]

theorem seqCount_take_succ (l : List Item) : ∀ (k : Nat) (hk : k < l.length),
    seqCount (l.take (k + 1))
      = seqCount (l.take k) + (l.get ⟨k, hk⟩).seqs.length := by
  induction l with
  | nil => intro k hk; exact absurd hk (by simp)
  | cons i rest ih =>
      intro k hk
      cases k with
      | zero => simp [seqCount_cons, seqCount_nil]
      | succ k =>
          have hk' : k < rest.length := by
            simpa using Nat.lt_of_succ_lt_succ hk
          rw [List.take_succ_cons, List.take_succ_cons, seqCount_cons,
            seqCount_cons, List.get_cons_succ, ih k hk']
          omega

/-! ## Claim theorems (continued) -/

/-- C4 counterexample: a batch of a 2-sequence item and a 1-sequence item
receives only one label (fewer than the 3-element flattened batch); the
items with unfilled positions are NOT resolved with a
"truncated downstream response" error as the claim states — their futures
simply stay pending. -/
theorem C4_counterexample :
    (["x"] : List String).length
        < (flatten [mkItem 30 none ["s1", "s2"], mkItem 31 none ["s3"]]).length ∧
    demux [mkItem 30 none ["s1", "s2"], mkItem 31 none ["s3"]] ["x"]
        (fun _ => Res.pending) 30 = Res.pending ∧
    demux [mkItem 30 none ["s1", "s2"], mkItem 31 none ["s3"]] ["x"]
        (fun _ => Res.pending) 31 = Res.pending ∧
    Res.pending ≠ Res.err "truncated downstream response" := by
  refine ⟨?_, ?_, ?_, ?_⟩ <;> decide

/-- C4 as amended: each returned label is scattered via the index map into
a per-item buffer of length `len(item.sequences)`; an item whose positions
are all filled — which happens exactly when the labels cover its segment of
the flattened batch — is resolved with the buffer, namely the labels slice
at its offset, which has exactly `len(item.sequences)` entries and is
positionally aligned with the submitted sequences; an item with an
unfilled position is left unresolved (its future stays pending, no
"truncated" error); futures outside the batch are untouched; labels beyond
the flattened batch are discarded. -/
theorem C4_demux (batch : List Item) (labels : List String) (m : ResMap)
    (hnd : (batch.map Item.id).Nodup)
    (hval : ∀ i ∈ batch, 1 ≤ i.seqs.length)
    (hpend : ∀ i ∈ batch, m i.id = .pending) :
    (∀ (k : Nat) (hk : k < batch.length),
      demux batch labels m (batch.get ⟨k, hk⟩).id
        = if seqCount (batch.take (k + 1)) ≤ labels.length
          then .ok ((labels.drop (seqCount (batch.take k))).take
              (batch.get ⟨k, hk⟩).seqs.length)
          else .pending) ∧
    (∀ (k : Nat) (hk : k < batch.length),
      seqCount (batch.take (k + 1)) ≤ labels.length →
      ((labels.drop (seqCount (batch.take k))).take
          (batch.get ⟨k, hk⟩).seqs.length).length
        = (batch.get ⟨k, hk⟩).seqs.length) ∧
    (∀ id : Nat, id ∉ batch.map Item.id → demux batch labels m id = m id) ∧
    demux batch labels m
      = demux batch (labels.take (flatten batch).length) m := by
  refine ⟨demux_pointwise batch labels m hnd hval hpend, ?_, ?_, ?_⟩
  · intro k hk hcov
    have hsucc := seqCount_take_succ batch k hk
    rw [List.length_take, List.length_drop]
    omega
  · intro id hout
    exact demux_outside batch labels m id hout
  · exact demux_take batch labels m

/-- Witness for C4 as amended: a full-length response resolves the first
item with its aligned label slice. -/
theorem C4_demux_witness :
    demux [mkItem 30 none ["s1", "s2"], mkItem 31 none ["s3"]]
        ["x", "y", "z"] (fun _ => Res.pending) 30 = Res.ok ["x", "y"] :=
  ((C4_demux [mkItem 30 none ["s1", "s2"], mkItem 31 none ["s3"]]
      ["x", "y", "z"] (fun _ => Res.pending) (by decide) (by decide)
      (fun _ _ => rfl)).1 0 (by decide)).trans (by decide)

end ProxyWars
